import Mathlib

/-!
Verification of the data layer of the blog-actix repository (src/src/models.rs).

The repository talks to a SQLite store through diesel.  We embed the store as
an explicit state (`DB`): each table is a list of rows kept in insertion
order (SQLite scans rows in rowid order, and rowids of an autoincrement
primary key are assigned in increasing order; nothing in this scope deletes
rows).  Each function of models.rs becomes a Lean function over `DB`; the
mutating operations (`create_user`, `create_post`, `create_comment`,
`publish_post`) additionally return the post-state, and a diesel error
becomes an `Except` error.
-/

namespace BlogActix

/-- Modelled from the spec: the error taxonomy of the crate error type
(src/src/errors.rs is not under src/); section 7 of the specification fixes
the four kinds "NotFound, ConstraintViolation, ConnectionError,
SerializationError".  Only NotFound and ConstraintViolation arise in the
sequential model. -/
inductive AppError where
  | NotFound
  | ConstraintViolation
  | ConnectionError
  | SerializationError
deriving DecidableEq, Repr

/-- Row of the users table (struct User in models.rs). -/
structure User where
  id : Int
  username : String
deriving DecidableEq, Repr

/-- Lookup key for find_user (enum UserKey in models.rs). -/
inductive UserKey where
  | Username (name : String)
  | ID (id : Int)

/-- Row of the posts table (struct Post in models.rs). -/
structure Post where
  id : Int
  user_id : Int
  title : String
  body : String
  published : Bool
deriving DecidableEq, Repr

/-- Row of the comments table (struct Comment in models.rs). -/
structure Comment where
  id : Int
  user_id : Int
  post_id : Int
  body : String
deriving DecidableEq, Repr

/-- Projection of a Post used by user_comments
(struct PostWithComment in models.rs): id, title, published. -/
structure PostWithComment where
  id : Int
  title : String
  published : Bool
deriving DecidableEq, Repr

/-- Modelled from the spec: the persistent store state.  The schema
(src/src/schema.rs is not under src/) is given in section 6 of the
specification: three tables, each with an autoincrement integer primary
key; rows are kept in insertion order (SQLite rowid order). -/
structure DB where
  users : List User
  posts : List Post
  comments : List Comment
deriving DecidableEq, Repr

def emptyDB : DB := ⟨[], [], []⟩

/-- Stable insertion step for descending order by an integer key:
the new element goes in front of the first strictly smaller key. -/
def insertDesc (k : α → Int) (x : α) : List α → List α
  | [] => [x]
  | y :: ys => if k y < k x then x :: y :: ys else y :: insertDesc k x ys

/-- ORDER BY k DESC over a scanned list of rows (stable insertion sort). -/
def sortDesc (k : α → Int) : List α → List α
  | [] => []
  | x :: xs => insertDesc k x (sortDesc k xs)

/-- Modelled from the spec: SQLite assigns the next autoincrement id, one
greater than the largest id present (the schema in section 6 declares the
primary keys autoincrement; no row is ever deleted in this scope). -/
def nextId (ids : List Int) : Int := ids.foldl max 0 + 1

def nextUserId (db : DB) : Int := nextId (db.users.map (·.id))

def nextPostId (db : DB) : Int := nextId (db.posts.map (·.id))

def nextCommentId (db : DB) : Int := nextId (db.comments.map (·.id))

/-- First statement inside create_user: INSERT INTO users (username). -/
def insertUserRow (db : DB) (username : String) : DB :=
  { db with users := db.users ++ [⟨nextUserId db, username⟩] }

/-- Second statement inside create_user: SELECT from users ORDER BY id
DESC LIMIT 1 (users::table.order(users::id.desc()).first). -/
def selectNewestUser (db : DB) : Option User :=
  (sortDesc (·.id) db.users).head?

/-- create_user of models.rs: inside one transaction, insert the row and
then read back the row with the greatest id.  The username uniqueness
constraint of the schema rejects a duplicate username
(ConstraintViolation); on any error the transaction rolls back. -/
def create_user (db : DB) (username : String) : Except AppError User × DB :=
  if db.users.any (fun u => u.username == username) then
    (.error .ConstraintViolation, db)
  else
    match selectNewestUser (insertUserRow db username) with
    | some u => (.ok u, insertUserRow db username)
    | none => (.error .NotFound, db)

/-- find_user of models.rs: by username it filters on the username column
and takes the first row; by id it is a primary-key lookup.  An empty
result is the diesel NotFound error. -/
def find_user (db : DB) (key : UserKey) : Except AppError User :=
  match key with
  | .Username name =>
    match (db.users.filter (fun u => u.username == name)).head? with
    | some u => .ok u
    | none => .error .NotFound
  | .ID id =>
    match (db.users.filter (fun u => u.id == id)).head? with
    | some u => .ok u
    | none => .error .NotFound

/-- First statement inside create_post: INSERT INTO posts
(user_id, title, body); published takes its schema default false. -/
def insertPostRow (db : DB) (user_id : Int) (title body : String) : DB :=
  { db with posts := db.posts ++ [⟨nextPostId db, user_id, title, body, false⟩] }

/-- Second statement inside create_post: SELECT from posts ORDER BY id
DESC LIMIT 1. -/
def selectNewestPost (db : DB) : Option Post :=
  (sortDesc (·.id) db.posts).head?

/-- create_post of models.rs: inside one transaction, insert the row and
read back the row with the greatest id. -/
def create_post (db : DB) (user : User) (title body : String) :
    Except AppError Post × DB :=
  match selectNewestPost (insertPostRow db user.id title body) with
  | some p => (.ok p, insertPostRow db user.id title body)
  | none => (.error .NotFound, db)

/-- Row-level effect of the UPDATE inside publish_post: set published on
the row whose id matches, leave every other row alone. -/
def publishRow (post_id : Int) (p : Post) : Post :=
  if p.id == post_id then { p with published := true } else p

/-- publish_post of models.rs: inside one transaction, UPDATE posts SET
published = true WHERE id = post_id (an update matching no row affects
nothing and is not an error), then re-read the row by primary key; the
re-read of a missing row is the diesel NotFound error and rolls the
transaction back. -/
def publish_post (db : DB) (post_id : Int) : Except AppError Post × DB :=
  match ((db.posts.map (publishRow post_id)).filter (fun p => p.id == post_id)).head? with
  | some p => (.ok p, { db with posts := db.posts.map (publishRow post_id) })
  | none => (.error .NotFound, db)

/-- The published-posts/author join shared by all_posts and
all_posts_with_comments_user: WHERE published, INNER JOIN users ON
posts.user_id = users.id, ORDER BY posts.id DESC. -/
def published_posts_with_user (db : DB) : List (Post × User) :=
  (sortDesc (·.id) (db.posts.filter (fun p => p.published))).flatMap
    (fun p => (db.users.filter (fun u => u.id == p.user_id)).map (fun u => (p, u)))

/-- all_posts of models.rs. -/
def all_posts (db : DB) : Except AppError (List (Post × User)) :=
  .ok (published_posts_with_user db)

/-- user_posts of models.rs: posts WHERE user_id = given, ORDER BY id DESC. -/
def user_posts (db : DB) (user_id : Int) : Except AppError (List Post) :=
  .ok (sortDesc (·.id) (db.posts.filter (fun p => p.user_id == user_id)))

/-- First statement inside create_comment: INSERT INTO comments
(user_id, post_id, body). -/
def insertCommentRow (db : DB) (user_id post_id : Int) (body : String) : DB :=
  { db with comments := db.comments ++ [⟨nextCommentId db, user_id, post_id, body⟩] }

/-- Second statement inside create_comment: SELECT from comments ORDER BY
id DESC LIMIT 1. -/
def selectNewestComment (db : DB) : Option Comment :=
  (sortDesc (·.id) db.comments).head?

/-- create_comment of models.rs: inside one transaction, insert the row
and read back the row with the greatest id. -/
def create_comment (db : DB) (user_id post_id : Int) (body : String) :
    Except AppError Comment × DB :=
  match selectNewestComment (insertCommentRow db user_id post_id body) with
  | some c => (.ok c, insertCommentRow db user_id post_id body)
  | none => (.error .NotFound, db)

/-- post_comments of models.rs: comments WHERE post_id = given,
INNER JOIN users ON comments.user_id = users.id, no ORDER BY
(store-native scan order). -/
def post_comments (db : DB) (post_id : Int) :
    Except AppError (List (Comment × User)) :=
  .ok ((db.comments.filter (fun c => c.post_id == post_id)).flatMap
    (fun c => (db.users.filter (fun u => u.id == c.user_id)).map (fun u => (c, u))))

/-- user_comments of models.rs: comments WHERE user_id = given, INNER JOIN
posts ON comments.post_id = posts.id, selecting the (id, title, published)
projection of the post; no ORDER BY. -/
def user_comments (db : DB) (user_id : Int) :
    Except AppError (List (Comment × PostWithComment)) :=
  .ok ((db.comments.filter (fun c => c.user_id == user_id)).flatMap
    (fun c => (db.posts.filter (fun p => p.id == c.post_id)).map
      (fun p => (c, ⟨p.id, p.title, p.published⟩))))

/-- One step of diesel grouped_by: append the child row to the bucket of
the first parent whose id equals the child foreign key; a child matching
no parent is dropped. -/
def addToBuckets (buckets : List (Post × List (Comment × User)))
    (c : Comment × User) : List (Post × List (Comment × User)) :=
  match buckets with
  | [] => []
  | (p, cs) :: rest =>
    if c.1.post_id == p.id then (p, cs ++ [c]) :: rest
    else (p, cs) :: addToBuckets rest c

/-- diesel grouped_by on (Comment, User) rows against a list of posts:
seed one empty ordered bucket per parent, scan the child list once
appending each child to the bucket keyed by its post_id foreign key, and
return the buckets in parent order. -/
def groupedBy (children : List (Comment × User)) (parents : List Post) :
    List (List (Comment × User)) :=
  (children.foldl addToBuckets (parents.map (fun p => (p, [])))).map Prod.snd

/-- Comment::belonging_to(&posts) joined with users: comments WHERE
post_id IN (ids of the given posts), INNER JOIN users on the commenter. -/
def belonging_to_with_user (db : DB) (parents : List Post) :
    List (Comment × User) :=
  (db.comments.filter (fun c => (parents.map (·.id)).contains c.post_id)).flatMap
    (fun c => (db.users.filter (fun u => u.id == c.user_id)).map (fun u => (c, u)))

/-- all_posts_with_comments_user of models.rs: load the published posts
with their authors, unzip, load the comments belonging to those posts
joined with their commenters, group them by post, and zip everything back
together. -/
def all_posts_with_comments_user (db : DB) :
    Except AppError (List ((Post × User) × List (Comment × User))) :=
  let posts_with_user := published_posts_with_user db
  let pair := posts_with_user.unzip
  let comments := groupedBy (belonging_to_with_user db pair.1) pair.1
  .ok ((pair.1.zip pair.2).zip comments)

/-- user_posts_with_comments of models.rs: load the posts of the user
ordered by id descending, load the comments belonging to those posts
joined with their commenters, group them by post, and zip. -/
def user_posts_with_comments (db : DB) (user_id : Int) :
    Except AppError (List (Post × List (Comment × User))) :=
  let posts := sortDesc (·.id) (db.posts.filter (fun p => p.user_id == user_id))
  let comments := groupedBy (belonging_to_with_user db posts) posts
  .ok (posts.zip comments)

/-! ### Helper lemmas about the sort and the autoincrement counter -/

theorem insertDesc_perm (k : α → Int) (x : α) (l : List α) :
    (insertDesc k x l).Perm (x :: l) := by
  induction l with
  | nil => exact List.Perm.refl _
  | cons y ys ih =>
    unfold insertDesc
    by_cases h : k y < k x
    · simp only [if_pos h]
      exact List.Perm.refl _
    · simp only [if_neg h]
      exact (ih.cons y).trans (List.Perm.swap x y ys)

theorem sortDesc_perm (k : α → Int) (l : List α) :
    (sortDesc k l).Perm l := by
  induction l with
  | nil => exact List.Perm.refl _
  | cons x xs ih =>
    exact (insertDesc_perm k x (sortDesc k xs)).trans (ih.cons x)

theorem mem_insertDesc (k : α → Int) (x : α) (l : List α) (a : α) :
    a ∈ insertDesc k x l ↔ a = x ∨ a ∈ l := by
  rw [(insertDesc_perm k x l).mem_iff, List.mem_cons]

theorem insertDesc_pairwise (k : α → Int) (x : α) (l : List α)
    (h : l.Pairwise (fun a b => k b ≤ k a)) :
    (insertDesc k x l).Pairwise (fun a b => k b ≤ k a) := by
  induction l with
  | nil => simp [insertDesc]
  | cons y ys ih =>
    rw [List.pairwise_cons] at h
    obtain ⟨hy, hys⟩ := h
    unfold insertDesc
    by_cases hxy : k y < k x
    · simp only [if_pos hxy]
      refine List.Pairwise.cons ?_ (List.Pairwise.cons hy hys)
      intro b hb
      rcases List.mem_cons.mp hb with rfl | hb
      · exact le_of_lt hxy
      · exact le_trans (hy b hb) (le_of_lt hxy)
    · simp only [if_neg hxy]
      refine List.Pairwise.cons ?_ (ih hys)
      intro b hb
      rcases (mem_insertDesc k x ys b).mp hb with rfl | hb
      · exact le_of_not_lt hxy
      · exact hy b hb

theorem sortDesc_pairwise (k : α → Int) (l : List α) :
    (sortDesc k l).Pairwise (fun a b => k b ≤ k a) := by
  induction l with
  | nil => simp [sortDesc]
  | cons x xs ih => exact insertDesc_pairwise k x (sortDesc k xs) ih

theorem sortDesc_append_greatest (k : α → Int) (x : α) (l : List α)
    (h : ∀ y ∈ l, k y < k x) :
    sortDesc k (l ++ [x]) = x :: sortDesc k l := by
  induction l with
  | nil => rfl
  | cons a as ih =>
    have ha : k a < k x := h a (List.mem_cons_self a as)
    have ih2 := ih (fun y hy => h y (List.mem_cons_of_mem a hy))
    show insertDesc k a (sortDesc k (as ++ [x])) = _
    rw [ih2]
    unfold insertDesc
    rw [if_neg (not_lt.mpr (le_of_lt ha))]
    rfl

theorem foldl_max_init (init : Int) (ids : List Int) :
    init ≤ ids.foldl max init := by
  induction ids generalizing init with
  | nil => exact le_refl _
  | cons a l ih =>
    exact le_trans (le_max_left init a) (ih (max init a))

theorem mem_le_foldl_max (init : Int) (ids : List Int) (x : Int)
    (hx : x ∈ ids) : x ≤ ids.foldl max init := by
  induction ids generalizing init with
  | nil => cases hx
  | cons a l ih =>
    rcases List.mem_cons.mp hx with rfl | hx
    · exact le_trans (le_max_right init x) (foldl_max_init (max init x) l)
    · exact ih (max init a) hx

theorem lt_nextId (ids : List Int) (x : Int) (hx : x ∈ ids) : x < nextId ids :=
  lt_of_le_of_lt (mem_le_foldl_max 0 ids x hx) (lt_add_one _)

theorem nextId_pos (ids : List Int) : 0 < nextId ids :=
  lt_of_le_of_lt (foldl_max_init 0 ids) (lt_add_one _)

/-! ### Helper lemmas about filters keyed by a unique column -/

theorem filter_key_eq_nil (f : α → Int) (x : Int) (l : List α)
    (h : ∀ a ∈ l, f a ≠ x) : l.filter (fun a => f a == x) = [] := by
  induction l with
  | nil => rfl
  | cons a as ih =>
    rw [List.filter_cons]
    rw [if_neg (by simpa using h a (List.mem_cons_self a as))]
    exact ih (fun b hb => h b (List.mem_cons_of_mem a hb))

theorem filter_key_singleton (f : α → Int) (l : List α) (a : α)
    (hnodup : (l.map f).Nodup) (ha : a ∈ l) :
    l.filter (fun b => f b == f a) = [a] := by
  induction l with
  | nil => cases ha
  | cons y ys ih =>
    rw [List.map_cons, List.nodup_cons] at hnodup
    obtain ⟨hy, hys⟩ := hnodup
    rcases List.mem_cons.mp ha with rfl | ha
    · rw [List.filter_cons, if_pos (by simp)]
      rw [filter_key_eq_nil f (f a) ys]
      intro b hb hbe
      exact hy (hbe ▸ List.mem_map_of_mem f hb)
    · have hne : f y ≠ f a := by
        intro he
        exact hy (he ▸ List.mem_map_of_mem f ha)
      rw [List.filter_cons, if_neg (by simpa using hne)]
      exact ih hys ha

/-! ### Helper lemmas about the grouping algorithm -/

theorem addToBuckets_length (buckets : List (Post × List (Comment × User)))
    (c : Comment × User) : (addToBuckets buckets c).length = buckets.length := by
  induction buckets with
  | nil => rfl
  | cons b rest ih =>
    obtain ⟨p, cs⟩ := b
    unfold addToBuckets
    by_cases h : c.1.post_id == p.id
    · rw [if_pos h]
      rfl
    · rw [if_neg h]
      simpa using ih

theorem foldl_addToBuckets_length (children : List (Comment × User))
    (buckets : List (Post × List (Comment × User))) :
    (children.foldl addToBuckets buckets).length = buckets.length := by
  induction children generalizing buckets with
  | nil => rfl
  | cons c cs ih =>
    rw [List.foldl_cons, ih, addToBuckets_length]

theorem groupedBy_length (children : List (Comment × User)) (parents : List Post) :
    (groupedBy children parents).length = parents.length := by
  unfold groupedBy
  rw [List.length_map, foldl_addToBuckets_length, List.length_map]

theorem addToBuckets_of_nodup (buckets : List (Post × List (Comment × User)))
    (c : Comment × User)
    (hnodup : (buckets.map (fun b => b.1.id)).Nodup) :
    addToBuckets buckets c
      = buckets.map (fun b =>
          (b.1, if c.1.post_id == b.1.id then b.2 ++ [c] else b.2)) := by
  induction buckets with
  | nil => rfl
  | cons b rest ih =>
    obtain ⟨p, cs⟩ := b
    rw [List.map_cons, List.nodup_cons] at hnodup
    obtain ⟨hp, hrest⟩ := hnodup
    unfold addToBuckets
    by_cases h : c.1.post_id == p.id
    · rw [if_pos h, List.map_cons]
      simp only [if_pos h]
      congr 1
      have hid : c.1.post_id = p.id := by simpa using h
      have : ∀ b ∈ rest, ¬(c.1.post_id == b.1.id) = true := by
        intro b hb hbe
        have : p.id = b.1.id := by
          have := (beq_iff_eq.mp hbe)
          omega
        exact hp (this ▸ List.mem_map_of_mem (fun b => b.1.id) hb)
      conv_lhs => rw [← List.map_id rest]
      refine List.map_congr_left ?_
      intro b hb
      rw [if_neg (this b hb), id]
    · rw [if_neg h, List.map_cons]
      simp only [if_neg h]
      rw [ih hrest]

theorem foldl_addToBuckets_of_nodup (children : List (Comment × User))
    (buckets : List (Post × List (Comment × User)))
    (hnodup : (buckets.map (fun b => b.1.id)).Nodup) :
    children.foldl addToBuckets buckets
      = buckets.map (fun b =>
          (b.1, b.2 ++ children.filter (fun c => c.1.post_id == b.1.id))) := by
  induction children generalizing buckets with
  | nil =>
    simp only [List.foldl_nil, List.filter_nil, List.append_nil]
    conv_lhs => rw [← List.map_id buckets]
    exact List.map_congr_left (fun b _ => rfl)
  | cons c cs ih =>
    rw [List.foldl_cons, addToBuckets_of_nodup buckets c hnodup]
    rw [ih]
    · rw [List.map_map]
      refine List.map_congr_left ?_
      intro b _
      simp only [Function.comp]
      by_cases h : c.1.post_id == b.1.id
      · rw [if_pos h, List.filter_cons, if_pos h]
        simp
      · rw [if_neg h, List.filter_cons, if_neg h]
    · rw [List.map_map]
      simpa [Function.comp] using hnodup

theorem groupedBy_eq_filter (children : List (Comment × User)) (parents : List Post)
    (hnodup : (parents.map (·.id)).Nodup) :
    groupedBy children parents
      = parents.map (fun p => children.filter (fun c => c.1.post_id == p.id)) := by
  unfold groupedBy
  rw [foldl_addToBuckets_of_nodup]
  · rw [List.map_map, List.map_map]
    refine List.map_congr_left ?_
    intro p _
    simp
  · rw [List.map_map]
    simpa [Function.comp] using hnodup

theorem zip_map_self (f : α → β) (l : List α) :
    l.zip (l.map f) = l.map (fun a => (a, f a)) := by
  induction l with
  | nil => rfl
  | cons a as ih => simpa using ih

theorem filter_false_eq_nil (p : α → Bool) (l : List α)
    (h : ∀ a ∈ l, p a = false) : l.filter p = [] := by
  induction l with
  | nil => rfl
  | cons a as ih =>
    rw [List.filter_cons, if_neg (by simp [h a (List.mem_cons_self a as)])]
    exact ih (fun b hb => h b (List.mem_cons_of_mem a hb))

/-! ### Sample rows used by the witness theorems -/

def uEx : User := ⟨1, "alice"⟩

def pEx : Post := ⟨1, 1, "Hello", "World", true⟩

def pExDraft : Post := ⟨2, 1, "Draft", "D", false⟩

def cEx : Comment := ⟨1, 1, 2, "Nice"⟩

def dbEx : DB := ⟨[uEx], [pEx, pExDraft], [cEx]⟩

/-!
### Claims about the relational assembler
-/

/-- Claim C1: for every parent list P (with the primary-key-unique ids a
posts table guarantees) and child list C, the assembler yields exactly one
output entry per parent, each parent paired with exactly the list of child
rows whose post_id foreign key equals the id of that parent (so a parent with no
matching children gets the empty list), and a child whose foreign key
matches no parent id appears in no output entry. -/
theorem assembler_complete (parents : List Post) (children : List (Comment × User))
    (hnodup : (parents.map (·.id)).Nodup) :
    (parents.zip (groupedBy children parents)).length = parents.length ∧
    parents.zip (groupedBy children parents)
      = parents.map (fun p => (p, children.filter (fun c => c.1.post_id == p.id))) ∧
    ∀ c ∈ children, c.1.post_id ∉ parents.map (·.id) →
      ∀ entry ∈ parents.zip (groupedBy children parents), c ∉ entry.2 := by
  have hchar : parents.zip (groupedBy children parents)
      = parents.map (fun p => (p, children.filter (fun c => c.1.post_id == p.id))) := by
    rw [groupedBy_eq_filter children parents hnodup, zip_map_self]
  refine ⟨?_, hchar, ?_⟩
  · rw [List.length_zip, groupedBy_length, min_self]
  · intro c _ hnotin entry hentry hcmem
    rw [hchar] at hentry
    obtain ⟨p, hp, rfl⟩ := List.mem_map.mp hentry
    have := (List.mem_filter.mp hcmem).2
    exact hnotin (beq_iff_eq.mp this ▸ List.mem_map_of_mem (·.id) hp)

theorem assembler_complete_witness :
    ([pEx].zip (groupedBy [(cEx, uEx)] [pEx])).length = [pEx].length :=
  (assembler_complete [pEx] [(cEx, uEx)] (by decide)).1

/-- Claim C2: the assembler emits the parent entries in exactly the order of
the input parent list, and the children list of each parent is a sublist of the
flat child list, hence keeps the children in the relative order they had
there. -/
theorem assembler_order (parents : List Post) (children : List (Comment × User))
    (hnodup : (parents.map (·.id)).Nodup) :
    (parents.zip (groupedBy children parents)).map Prod.fst = parents ∧
    ∀ entry ∈ parents.zip (groupedBy children parents),
      entry.2.Sublist children := by
  have hchar : parents.zip (groupedBy children parents)
      = parents.map (fun p => (p, children.filter (fun c => c.1.post_id == p.id))) := by
    rw [groupedBy_eq_filter children parents hnodup, zip_map_self]
  rw [hchar]
  constructor
  · rw [List.map_map]
    exact List.map_id _
  · intro entry hentry
    obtain ⟨p, _, rfl⟩ := List.mem_map.mp hentry
    exact List.filter_sublist children

theorem assembler_order_witness :
    ([pEx].zip (groupedBy [(cEx, uEx)] [pEx])).map Prod.fst = [pEx] :=
  (assembler_order [pEx] [(cEx, uEx)] (by decide)).1

/-!
### Claim about the create pattern (the insert-then-reselect race)
-/

/-- Claim C3 (refuted): create_user does not return the inserted row as part
of one indivisible operation; it performs the insert (insertUserRow) and then
a separate most-recent-row query (selectNewestUser, SELECT ... ORDER BY id
DESC LIMIT 1).  Run sequentially on an empty store the two steps happen to
return the row just inserted (first conjunct), but when the insert of a second
writer lands between the two steps, the read-back step returns the row of the other
writer (id 2, "bob") instead of the row the first caller inserted
(id 1, "alice") — exactly the race the specification forbids. -/
theorem create_user_readback_is_most_recent_row_query :
    create_user emptyDB "alice"
      = (Except.ok ⟨1, "alice"⟩, insertUserRow emptyDB "alice") ∧
    selectNewestUser (insertUserRow emptyDB "alice") = some ⟨1, "alice"⟩ ∧
    selectNewestUser (insertUserRow (insertUserRow emptyDB "alice") "bob")
      = some ⟨2, "bob"⟩ :=
  ⟨rfl, rfl, rfl⟩

/-!
### Claims about publish_post
-/

/-- The per-row effect of the UPDATE inside publish_post preserves the id. -/
theorem publishRow_id (pid : Int) (p : Post) : (publishRow pid p).id = p.id := by
  unfold publishRow
  by_cases h : p.id == pid <;> simp [h]

/-- Applying the UPDATE row effect twice is the same as applying it once. -/
theorem publishRow_idem (pid : Int) (p : Post) :
    publishRow pid (publishRow pid p) = publishRow pid p := by
  unfold publishRow
  by_cases h : p.id == pid <;> simp [h]

theorem map_publishRow_idem (pid : Int) (l : List Post) :
    (l.map (publishRow pid)).map (publishRow pid) = l.map (publishRow pid) := by
  rw [List.map_map]
  exact List.map_congr_left (fun p _ => publishRow_idem pid p)

/-- If a post with the target id exists, the re-read filter inside
publish_post is non-empty and its head is a published row carrying the
target id. -/
theorem publish_filter_head (l : List Post) (pid : Int)
    (h : ∃ p ∈ l, p.id = pid) :
    ∃ q, ((l.map (publishRow pid)).filter (fun p => p.id == pid)).head? = some q := by
  obtain ⟨p, hp, hpe⟩ := h
  have hmem : publishRow pid p ∈ (l.map (publishRow pid)).filter (fun p => p.id == pid) := by
    rw [List.mem_filter]
    exact ⟨List.mem_map_of_mem _ hp, by simp [publishRow_id, hpe]⟩
  cases hhead : ((l.map (publishRow pid)).filter (fun p => p.id == pid)).head? with
  | some q => exact ⟨q, rfl⟩
  | none =>
    rw [List.head?_eq_none_iff] at hhead
    rw [hhead] at hmem
    cases hmem

/-- Claim C4: publishing an existing post succeeds with published = true,
and publishing it again succeeds, returns the same published row, and
leaves the store where the first call left it: the transition is idempotent
and one-directional. -/
theorem publish_idempotent (db : DB) (pid : Int)
    (h : ∃ p ∈ db.posts, p.id = pid) :
    ∃ p1 db1, publish_post db pid = (Except.ok p1, db1) ∧ p1.published = true ∧
      publish_post db1 pid = (Except.ok p1, db1) := by
  obtain ⟨p1, hp1⟩ := publish_filter_head db.posts pid h
  have hp1mem : p1 ∈ (db.posts.map (publishRow pid)).filter (fun p => p.id == pid) :=
    List.mem_of_mem_head? (hp1 ▸ Option.mem_def.mpr rfl)
  have hpub : p1.published = true := by
    obtain ⟨hmem, _⟩ := List.mem_filter.mp hp1mem
    obtain ⟨q, hq, rfl⟩ := List.mem_map.mp hmem
    have hqid : q.id = pid := by
      have := (List.mem_filter.mp hp1mem).2
      simpa [publishRow_id] using this
    unfold publishRow
    rw [if_pos (by simpa using hqid)]
  refine ⟨p1, { db with posts := db.posts.map (publishRow pid) }, ?_, hpub, ?_⟩
  · unfold publish_post
    rw [hp1]
  · unfold publish_post
    simp only [map_publishRow_idem, hp1]

theorem publish_idempotent_witness :
    ∃ p1 db1, publish_post dbEx 1 = (Except.ok p1, db1) ∧ p1.published = true ∧
      publish_post db1 1 = (Except.ok p1, db1) :=
  publish_idempotent dbEx 1 (by decide)

/-- Claim C6: publish_post fails with NotFound exactly when no post with
the target id exists, and in that case the store state is returned
unchanged. -/
theorem publish_post_notfound (db : DB) (pid : Int) :
    ((publish_post db pid).1 = Except.error AppError.NotFound
      ↔ ∀ p ∈ db.posts, p.id ≠ pid) ∧
    ((∀ p ∈ db.posts, p.id ≠ pid) → (publish_post db pid).2 = db) := by
  have hiff : ((db.posts.map (publishRow pid)).filter (fun p => p.id == pid)) = []
      ↔ ∀ p ∈ db.posts, p.id ≠ pid := by
    constructor
    · intro hnil p hp hpe
      have hmem : publishRow pid p ∈ (db.posts.map (publishRow pid)).filter
          (fun p => p.id == pid) := by
        rw [List.mem_filter]
        exact ⟨List.mem_map_of_mem _ hp, by simp [publishRow_id, hpe]⟩
      rw [hnil] at hmem
      cases hmem
    · intro hall
      refine filter_false_eq_nil _ _ ?_
      intro q hq
      obtain ⟨p, hp, rfl⟩ := List.mem_map.mp hq
      simpa [publishRow_id] using hall p hp
  constructor
  · constructor
    · intro hres p hp hpe
      cases hh : ((db.posts.map (publishRow pid)).filter (fun p => p.id == pid)).head? with
      | some q =>
        unfold publish_post at hres
        rw [hh] at hres
        cases hres
      | none =>
        rw [List.head?_eq_none_iff] at hh
        exact (hiff.mp hh) p hp hpe
    · intro hall
      have hnil := hiff.mpr hall
      unfold publish_post
      rw [hnil]
      rfl
  · intro hall
    have hnil := hiff.mpr hall
    unfold publish_post
    rw [hnil]
    rfl

theorem publish_post_notfound_witness :
    (publish_post dbEx 99).1 = Except.error AppError.NotFound ∧
    (publish_post dbEx 99).2 = dbEx :=
  ⟨(publish_post_notfound dbEx 99).1.mpr (by decide),
   (publish_post_notfound dbEx 99).2 (by decide)⟩

/-- Claim C8: publishing an existing post touches nothing but the published
field of the rows carrying the target id: users and comments are unchanged,
the posts list keeps its length and order, every post keeps its id,
user_id, title and body, a post with a different id is entirely unchanged,
and the post with the target id ends up published. -/
theorem publish_frame (db : DB) (pid : Int)
    (h : ∃ p ∈ db.posts, p.id = pid) :
    (publish_post db pid).2.users = db.users ∧
    (publish_post db pid).2.comments = db.comments ∧
    List.Forall₂ (fun p q =>
        q.id = p.id ∧ q.user_id = p.user_id ∧ q.title = p.title ∧ q.body = p.body ∧
        (p.id ≠ pid → q = p) ∧ (p.id = pid → q.published = true))
      db.posts (publish_post db pid).2.posts := by
  obtain ⟨p1, hp1⟩ := publish_filter_head db.posts pid h
  have hstate : (publish_post db pid).2 = { db with posts := db.posts.map (publishRow pid) } := by
    unfold publish_post
    rw [hp1]
  refine hstate ▸ ⟨rfl, rfl, ?_⟩
  show List.Forall₂ _ db.posts (db.posts.map (publishRow pid))
  rw [List.forall₂_map_right_iff]
  rw [List.forall₂_same]
  intro p _
  unfold publishRow
  by_cases hc : p.id == pid
  · have hce : p.id = pid := by simpa using hc
    rw [if_pos hc]
    exact ⟨rfl, rfl, rfl, rfl, fun hne => absurd hce hne, fun _ => rfl⟩
  · have hce : p.id ≠ pid := by simpa using hc
    rw [if_neg hc]
    exact ⟨rfl, rfl, rfl, rfl, fun _ => rfl, fun he => absurd he hce⟩

theorem publish_frame_witness :
    (publish_post dbEx 1).2.users = dbEx.users ∧
    (publish_post dbEx 1).2.comments = dbEx.comments ∧
    List.Forall₂ (fun p q =>
        q.id = p.id ∧ q.user_id = p.user_id ∧ q.title = p.title ∧ q.body = p.body ∧
        (p.id ≠ 1 → q = p) ∧ (p.id = 1 → q.published = true))
      dbEx.posts (publish_post dbEx 1).2.posts :=
  publish_frame dbEx 1 (by decide)

/-- Claim C9: user_comments applies no filter on the published column
of the parent post: a comment by the user whose parent post is unpublished is
in the result, paired with a summary projection carrying published =
false. -/
theorem user_comments_includes_unpublished (db : DB) (uid : Int)
    (c : Comment) (p : Post) (hc : c ∈ db.comments) (hcu : c.user_id = uid)
    (hp : p ∈ db.posts) (hpc : p.id = c.post_id) (hunpub : p.published = false) :
    ∃ res, user_comments db uid = Except.ok res ∧
      (c, PostWithComment.mk p.id p.title false) ∈ res := by
  refine ⟨_, rfl, ?_⟩
  rw [List.mem_flatMap]
  refine ⟨c, ?_, ?_⟩
  · rw [List.mem_filter]
    exact ⟨hc, by simpa using hcu⟩
  · rw [List.mem_map]
    refine ⟨p, ?_, ?_⟩
    · rw [List.mem_filter]
      exact ⟨hp, by simpa using hpc⟩
    · rw [hunpub]

theorem user_comments_includes_unpublished_witness :
    ∃ res, user_comments dbEx 1 = Except.ok res ∧
      (cEx, PostWithComment.mk pExDraft.id pExDraft.title false) ∈ res :=
  user_comments_includes_unpublished dbEx 1 cEx pExDraft
    (by decide) rfl (by decide) rfl rfl

/-- Claim C10: a user id matching no posts makes user_posts return the
empty list successfully, and a post id matching no comments makes
post_comments return the empty list successfully; neither is an error. -/
theorem empty_results_not_error (db : DB) (uid pid : Int)
    (hposts : ∀ p ∈ db.posts, p.user_id ≠ uid)
    (hcomments : ∀ c ∈ db.comments, c.post_id ≠ pid) :
    user_posts db uid = Except.ok [] ∧ post_comments db pid = Except.ok [] := by
  constructor
  · unfold user_posts
    rw [filter_false_eq_nil (fun p => p.user_id == uid) db.posts
      (fun p hp => by simpa using hposts p hp)]
    rfl
  · unfold post_comments
    rw [filter_false_eq_nil (fun c => c.post_id == pid) db.comments
      (fun c hc => by simpa using hcomments c hc)]
    rfl

theorem empty_results_not_error_witness :
    user_posts dbEx 5 = Except.ok [] ∧ post_comments dbEx 99 = Except.ok [] :=
  empty_results_not_error dbEx 5 99 (by decide) (by decide)

/-- Claim C7: creating a user under a fresh username succeeds, the returned
User carries the positive store-assigned id and the requested username, and
looking the user up afterwards by that id or by that username returns the
identical User. -/
theorem create_find_round_trip (db : DB) (name : String)
    (hfresh : ∀ u ∈ db.users, u.username ≠ name) :
    ∃ u db1, create_user db name = (Except.ok u, db1) ∧
      u.username = name ∧ 0 < u.id ∧
      find_user db1 (UserKey.ID u.id) = Except.ok u ∧
      find_user db1 (UserKey.Username name) = Except.ok u := by
  have hany : (db.users.any (fun u => u.username == name)) = false := by
    rw [List.any_eq_false]
    intro u hu
    simpa using hfresh u hu
  have hlt : ∀ v ∈ db.users, v.id < nextUserId db := by
    intro v hv
    exact lt_nextId _ _ (List.mem_map_of_mem (·.id) hv)
  have hsel : selectNewestUser (insertUserRow db name)
      = some ⟨nextUserId db, name⟩ := by
    show (sortDesc (·.id) (db.users ++ [⟨nextUserId db, name⟩])).head? = _
    rw [sortDesc_append_greatest (·.id) ⟨nextUserId db, name⟩ db.users hlt]
    rfl
  have hidnil : db.users.filter (fun u => u.id == nextUserId db) = [] := by
    refine filter_false_eq_nil _ _ ?_
    intro v hv
    exact beq_eq_false_iff_ne.mpr (ne_of_lt (hlt v hv))
  have hnamenil : db.users.filter (fun u => u.username == name) = [] := by
    refine filter_false_eq_nil _ _ ?_
    intro v hv
    exact beq_eq_false_iff_ne.mpr (hfresh v hv)
  refine ⟨⟨nextUserId db, name⟩, insertUserRow db name, ?_, rfl, nextId_pos _, ?_, ?_⟩
  · unfold create_user
    rw [hany, if_neg Bool.false_ne_true, hsel]
  · have hfid : (db.users ++ [(⟨nextUserId db, name⟩ : User)]).filter
        (fun u => u.id == nextUserId db) = [⟨nextUserId db, name⟩] := by
      rw [List.filter_append, hidnil]
      simp
    simp [find_user, insertUserRow, hfid]
  · have hfname : (db.users ++ [(⟨nextUserId db, name⟩ : User)]).filter
        (fun u => u.username == name) = [⟨nextUserId db, name⟩] := by
      rw [List.filter_append, hnamenil]
      simp
    simp [find_user, insertUserRow, hfname]

theorem create_find_round_trip_witness :
    ∃ u db1, create_user emptyDB "alice" = (Except.ok u, db1) ∧
      u.username = "alice" ∧ 0 < u.id ∧
      find_user db1 (UserKey.ID u.id) = Except.ok u ∧
      find_user db1 (UserKey.Username "alice") = Except.ok u :=
  create_find_round_trip emptyDB "alice" (by simp [emptyDB])

/-- Each published post of the parent list contributes exactly its unique
author row to the join, so projecting the join rows back to their first
component recovers the parent list. -/
theorem flatMap_author_fst (db : DB) (l : List Post)
    (hU : (db.users.map (·.id)).Nodup)
    (hFK : ∀ p ∈ l, ∃ u ∈ db.users, u.id = p.user_id) :
    (l.flatMap (fun p => (db.users.filter (fun u => u.id == p.user_id)).map
      (fun u => (p, u)))).map Prod.fst = l := by
  induction l with
  | nil => rfl
  | cons p ps ih =>
    obtain ⟨u, hu, hue⟩ := hFK p (List.mem_cons_self p ps)
    have hsingle : db.users.filter (fun v => v.id == p.user_id) = [u] := by
      rw [← hue]
      exact filter_key_singleton (·.id) db.users u hU hu
    rw [List.flatMap_cons, List.map_append, hsingle,
      ih (fun q hq => hFK q (List.mem_cons_of_mem p hq))]
    rfl

/-- Claim C5: all_posts returns only rows whose post is published, pairs
every row with the user whose id is the user_id of the post, covers exactly the
published posts (as a permutation, hence as a multiset), and lists them in
descending order of post id. -/
theorem all_posts_published_only (db : DB)
    (hU : (db.users.map (·.id)).Nodup)
    (hFK : ∀ p ∈ db.posts, p.published = true → ∃ u ∈ db.users, u.id = p.user_id) :
    ∃ res, all_posts db = Except.ok res ∧
      (∀ pu ∈ res, pu.1.published = true ∧ pu.2 ∈ db.users ∧ pu.2.id = pu.1.user_id) ∧
      (res.map Prod.fst).Perm (db.posts.filter (fun p => p.published)) ∧
      (res.map (fun pu => pu.1.id)).Pairwise (fun a b => b ≤ a) := by
  have hFK2 : ∀ p ∈ sortDesc (·.id) (db.posts.filter (fun p => p.published)),
      ∃ u ∈ db.users, u.id = p.user_id := by
    intro p hp
    have hmem := List.mem_filter.mp
      ((sortDesc_perm (·.id) (db.posts.filter (fun p => p.published))).mem_iff.mp hp)
    exact hFK p hmem.1 (by simpa using hmem.2)
  have hfst := flatMap_author_fst db _ hU hFK2
  refine ⟨published_posts_with_user db, rfl, ?_, ?_, ?_⟩
  · intro pu hpu
    unfold published_posts_with_user at hpu
    obtain ⟨p, hp, hpu2⟩ := List.mem_flatMap.mp hpu
    obtain ⟨u, hu, rfl⟩ := List.mem_map.mp hpu2
    have hufil := List.mem_filter.mp hu
    have hpfil := List.mem_filter.mp
      ((sortDesc_perm (·.id) (db.posts.filter (fun p => p.published))).mem_iff.mp hp)
    exact ⟨by simpa using hpfil.2, hufil.1, by simpa using hufil.2⟩
  · unfold published_posts_with_user
    rw [hfst]
    exact sortDesc_perm _ _
  · have hmm : (published_posts_with_user db).map (fun pu => pu.1.id)
        = ((published_posts_with_user db).map Prod.fst).map (fun p => p.id) := by
      rw [List.map_map]
      rfl
    rw [hmm]
    unfold published_posts_with_user
    rw [hfst, List.pairwise_map]
    exact sortDesc_pairwise _ _

theorem all_posts_published_only_witness :
    ∃ res, all_posts dbEx = Except.ok res ∧
      (∀ pu ∈ res, pu.1.published = true ∧ pu.2 ∈ dbEx.users ∧ pu.2.id = pu.1.user_id) ∧
      (res.map Prod.fst).Perm (dbEx.posts.filter (fun p => p.published)) ∧
      (res.map (fun pu => pu.1.id)).Pairwise (fun a b => b ≤ a) :=
  all_posts_published_only dbEx (by decide) (by decide)

end BlogActix
